import Mathlib

/-!
Verification of the `GravDecoder` module (src/decoder.py) of DC-Net-code.

The decoder computes, per depth layer, the gravity field of a layered
density volume by zero-padded 2-D FFT convolution against a cached
frequency-domain kernel.  This file gives a shallow embedding of the
module over exact arithmetic (densities and fields are real numbers,
the FFT is the exact discrete Fourier transform over the complex
numbers) and proves or refutes the specification's claims about it.

External collaborators of the source (the geoist physical evaluator
`prism.gz`, mesh and observation-grid construction, torch persistence,
the process pool) are opaque per the specification; the per-layer
matrix of evaluator responses is abstracted into a function
`gz : layer index -> tile index -> real`.
-/

namespace DCNet

open Finset

/-- A 4-dimensional tensor: a shape (four extents) together with a total
data function.  Entries at indices outside the shape are irrelevant
(theorems quantify over in-range indices only); freshly allocated
tensors hold zero there.  Axis names follow the density-volume layout
(batch, layer, row, column); the kernel cache entry reuses the same
structure for its (layer, 2R, 2C, channel) axes. -/
structure Tensor4 where
  nb : ℕ
  nl : ℕ
  nr : ℕ
  nc : ℕ
  data : ℕ → ℕ → ℕ → ℕ → ℝ

/-- Shape of a tensor as a 4-tuple, mirroring the torch `.shape`. -/
def Tensor4.shape (t : Tensor4) : ℕ × ℕ × ℕ × ℕ := (t.nb, t.nl, t.nr, t.nc)

/-- Model of `torch.zeros_like` (line 47): fresh tensor of the same
shape, all entries zero. -/
def zerosLike (t : Tensor4) : Tensor4 := ⟨t.nb, t.nl, t.nr, t.nc, fun _ _ _ _ => 0⟩

/-- Twiddle factor of the discrete Fourier transform on `N` points:
`exp (2 pi i j / N)`. -/
noncomputable def twiddle (N : ℕ) (j : ℤ) : ℂ :=
  Complex.exp (2 * Real.pi * Complex.I * j / N)

/-- Unnormalized 2-D discrete Fourier sum with sign `s` on an
`N x M` grid: the common core of the forward and inverse transforms. -/
noncomputable def ft2 (s : ℤ) (N M : ℕ) (f : ℕ → ℕ → ℂ) (a b : ℕ) : ℂ :=
  ∑ n ∈ Finset.range N, ∑ m ∈ Finset.range M,
    f n m * twiddle N (s * a * n) * twiddle M (s * b * m)

/-- Normalization factor `1 / sqrt (N*M)` of the unitary transforms. -/
noncomputable def normFactor (N M : ℕ) : ℝ := (Real.sqrt (N * M))⁻¹

/-- Unitary forward 2-D DFT: model of `Tensor.fft(2, normalized=True)`
(line 60) on an `N x M` grid. -/
noncomputable def dft2 (N M : ℕ) (f : ℕ → ℕ → ℂ) (a b : ℕ) : ℂ :=
  (normFactor N M : ℂ) * ft2 (-1) N M f a b

/-- Unitary inverse 2-D DFT: model of `Tensor.ifft(2, normalized=True)`
(line 68). -/
noncomputable def idft2 (N M : ℕ) (f : ℕ → ℕ → ℂ) (a b : ℕ) : ℂ :=
  (normFactor N M : ℂ) * ft2 1 N M f a b

/-- Unnormalized forward 2-D DFT, the convention of the kernel
eigenvalue construction (see `genKernelEigs`). -/
noncomputable def dft2u (N M : ℕ) (f : ℕ → ℕ → ℂ) (a b : ℕ) : ℂ :=
  ft2 (-1) N M f a b

/-- The decoder module: geometry descriptor plus derived constants and
the kernel cache buffer, mirroring the attributes set in `__init__`
(lines 27-36).  Cell sizes are exact rationals (the source's floats),
cell counts are naturals. -/
structure GravDecoder where
  name : String
  dzyx : ℚ × ℚ × ℚ
  nzyx : ℕ × ℕ × ℕ
  G_const : ℝ
  cell_volume : ℚ
  GV : ℝ
  data_dir : String
  kernelEigs : Tensor4

/-- Configured layer count `nzyx[0]`. -/
def GravDecoder.nz (d : GravDecoder) : ℕ := d.nzyx.1

/-- Configured row count `nzyx[1]`. -/
def GravDecoder.ny (d : GravDecoder) : ℕ := d.nzyx.2.1

/-- Configured column count `nzyx[2]`. -/
def GravDecoder.nx (d : GravDecoder) : ℕ := d.nzyx.2.2

/-- The per-layer kernel matrix of evaluator responses (lines 103-107):
tile `(r, c)` of layer `i` is the external evaluator's response for
mesh index `r * nx + c` (the `reshape(1, ny, nx)` of the pool-gathered
list `kernel0`).  The evaluator `gz` abstracts
`prism.gz(xp[0:1], yp[0:1], zp[0:1], [mesh[j]])`, an external
collaborator. -/
def kernelMatrix (gz : ℕ → ℕ → ℝ) (nx : ℕ) (i r c : ℕ) : ℝ := gz i (r * nx + c)

/-- Modelled from the spec: the circulant embedding inside geoist's
`GToepOperator` (line 108), which is not part of this repository.  Per
section 4.1.f the `ny x nx` kernel matrix is embedded by zero-padding
to twice each horizontal dimension; this is that padded matrix (over
the complexes, imaginary part zero). -/
noncomputable def padK (gz : ℕ → ℕ → ℝ) (ny nx : ℕ) (i : ℕ) (p q : ℕ) : ℂ :=
  if p < ny ∧ q < nx then (kernelMatrix gz nx i p q : ℂ) else 0

/-- Modelled from the spec: `GToepOperator(kernel0).eigs[0]` (lines
108-110), geoist code not in this repository.  Per section 4.1.f the
eigenvalues are the 2-D discrete Fourier transform of the zero-padded
kernel matrix; the transform is the plain (unnormalized) DFT, the
convention under which section 8's exact single-cell impulse-response
property is consistent with the unitary transforms used in `forward`
(a unitary kernel transform would scale every response by
`sqrt (4*ny*nx)`).  Real and imaginary parts are stored as the two
channels of the last axis (lines 109-110); the float32 storage cast is
the identity in this exact-arithmetic embedding.  The cache entry is
`torch.empty(nz, 2*ny, 2*nx, 2)` (line 85) filled layer by layer. -/
noncomputable def genKernelEigs (gz : ℕ → ℕ → ℝ) (nz ny nx : ℕ) : Tensor4 :=
  { nb := nz, nl := 2 * ny, nr := 2 * nx, nc := 2,
    data := fun i a b ch =>
      if ch = 0 then (dft2u (2 * ny) (2 * nx) (padK gz ny nx i) a b).re
      else if ch = 1 then (dft2u (2 * ny) (2 * nx) (padK gz ny nx i) a b).im
      else 0 }

/-- Model of `GravDecoder.__init__` (lines 27-36) on the cache-miss
path: derived constants are computed and `gen_kernel_eigs` fills the
kernel buffer (persistence of the result is external).  The constructor
body performs no validation of the geometry descriptor. -/
noncomputable def mkGravDecoder (dzyx : ℚ × ℚ × ℚ) (nzyx : ℕ × ℕ × ℕ)
    (gz : ℕ → ℕ → ℝ) : GravDecoder :=
  { name := "GravDecoder",
    dzyx := dzyx,
    nzyx := nzyx,
    G_const := 6.674e-11,
    cell_volume := dzyx.1 * dzyx.2.1 * dzyx.2.2,
    GV := (6.674e-11 : ℝ) * ((dzyx.1 * dzyx.2.1 * dzyx.2.2 : ℚ) : ℝ),
    data_dir := "./models",
    kernelEigs := genKernelEigs gz nzyx.1 nzyx.2.1 nzyx.2.2 }

/-- Construction wrapped in the error monad: the source constructor
raises no exception on this path (there is no validation code in
lines 27-36, and with natural-number counts and exact rational sizes
none of the array allocations of `gen_kernel_eigs` can fail), so the
result is always `ok`. -/
noncomputable def gravDecoderInit (dzyx : ℚ × ℚ × ℚ) (nzyx : ℕ × ℕ × ℕ)
    (gz : ℕ → ℕ → ℝ) : Except String GravDecoder :=
  Except.ok (mkGravDecoder dzyx nzyx gz)

/-- Real channel of the padded buffer `expand_v` after the slice
assignment of line 59: the layer-`i` density slice placed in the
top-left `ny x nx` quadrant (bounds are the configured counts), zero
elsewhere; the imaginary channel stays zero. -/
def expandVal (dec : GravDecoder) (x : Tensor4) (i b n m : ℕ) : ℝ :=
  if n < dec.ny ∧ m < dec.nx then x.data b i n m else 0

/-- Complex view of a two-channel slice of the kernel cache entry
(layer `i`, frequency bin `(a, b)`): channel 0 is the real part,
channel 1 the imaginary part. -/
def kcplx (ke : Tensor4) (i a b : ℕ) : ℂ :=
  (ke.data i a b 0 : ℂ) + (ke.data i a b 1 : ℂ) * Complex.I

/-- One layer's field value before quadrant extraction, as a function
of the configured counts `(ny, nx)`, the input's counts `(rin, cin)`,
the kernel slice `kl` and the density slice: pad the slice into the
top-left quadrant (line 59), take the unitary forward 2-D DFT over the
padded input extents (line 60), multiply pointwise against the kernel
slice (lines 62-67), and take the unitary inverse 2-D DFT over the
extents of `res`, which is allocated with the configured counts
(lines 49-52, 68). -/
noncomputable def layerField (ny nx rin cin : ℕ) (kl : ℕ → ℕ → ℂ)
    (slice : ℕ → ℕ → ℝ) (u v : ℕ) : ℂ :=
  idft2 (2 * ny) (2 * nx)
    (fun a c => dft2 (2 * rin) (2 * cin)
      (fun n m => ((if n < ny ∧ m < nx then slice n m else 0 : ℝ) : ℂ)) a c * kl a c) u v

/-- Frequency-domain density `eigs_layer_i` (line 60): unitary 2-D DFT
of the padded buffer, whose extents are twice the input's row and
column counts. -/
noncomputable def eigsVal (dec : GravDecoder) (x : Tensor4) (i b a c : ℕ) : ℂ :=
  dft2 (2 * x.nr) (2 * x.nc) (fun n m => (expandVal dec x i b n m : ℂ)) a c

/-- Complex pointwise product against the kernel (lines 62-67):
`tmp_0` and `tmp_1` are exactly the real and imaginary parts of this
product. -/
noncomputable def prodVal (ke : Tensor4) (dec : GravDecoder) (x : Tensor4)
    (i b a c : ℕ) : ℂ :=
  eigsVal dec x i b a c * kcplx ke i a c

/-- One layer's field value through a given kernel cache tensor. -/
noncomputable def layerResK (ke : Tensor4) (dec : GravDecoder) (x : Tensor4)
    (i b u v : ℕ) : ℂ :=
  layerField dec.ny dec.nx x.nr x.nc (kcplx ke i) (x.data b i) u v

/-- Per-layer field through the decoder's own kernel buffer. -/
noncomputable def layerRes (dec : GravDecoder) (x : Tensor4) (i b u v : ℕ) : ℂ :=
  layerResK dec.kernelEigs dec x i b u v

/-- Torch broadcast compatibility of two extents in an elementwise
operation: equal, or one of them 1. -/
def bcastOk (a b : ℕ) : Bool := a == b || a == 1 || b == 1

/-- Shape condition of the slice assignment
`expand_v[:, :ny, :nx, 0] = data_input[:, ilayer, :, :]` (line 59):
each right-hand extent must equal the sliced left-hand extent
(`min` of the configured count and the doubled input count) or be 1
(broadcast). -/
def sliceAssignOk (ny nx rin cin : ℕ) : Bool :=
  (rin == min ny (2 * rin) || rin == 1) && (cin == min nx (2 * cin) || cin == 1)

/-- Shape condition of the elementwise complex multiply of lines 62-65:
the doubled input extents against the kernel slice extents. -/
def mulOk (ke : Tensor4) (rin cin : ℕ) : Bool :=
  bcastOk (2 * rin) ke.nl && bcastOk (2 * cin) ke.nr

/-- Shape condition of the assignment `res[:,:,:,0] = tmp_0`
(lines 66-67): the broadcast result extents against the extents of
`res` (allocated with the configured counts). -/
def resAssignOk (ny nx : ℕ) (ke : Tensor4) (rin cin : ℕ) : Bool :=
  (2 * ny == max (2 * rin) ke.nl || max (2 * rin) ke.nl == 1) &&
  (2 * nx == max (2 * cin) ke.nr || max (2 * cin) ke.nr == 1)

/-- Shape condition of the final slice assignment
`final_res[:, ilayer, :, :] = res[:, :ny, :nx, 0]` (line 74). -/
def finalAssignOk (ny nx rin cin : ℕ) : Bool :=
  (ny == rin || ny == 1) && (nx == cin || nx == 1)

/-- The per-layer loop of `forward` (lines 48-74): process the listed
layer indices in order, threading the accumulated `final_res` data;
each shape incompatibility or out-of-range kernel index aborts with an
error, mirroring where the torch operations would raise. -/
noncomputable def forwardLayers (dec : GravDecoder) (x : Tensor4) :
    List ℕ → (ℕ → ℕ → ℕ → ℕ → ℝ) → Except String (ℕ → ℕ → ℕ → ℕ → ℝ)
  | [], acc => Except.ok acc
  | i :: rest, acc =>
    if sliceAssignOk dec.ny dec.nx x.nr x.nc then
      if i < dec.kernelEigs.nb then
        if mulOk dec.kernelEigs x.nr x.nc then
          if resAssignOk dec.ny dec.nx dec.kernelEigs x.nr x.nc then
            if finalAssignOk dec.ny dec.nx x.nr x.nc then
              forwardLayers dec x rest
                (fun b l u v =>
                  if l = i then (layerRes dec x i b u v).re else acc b l u v)
            else Except.error "shape mismatch in final slice assignment"
          else Except.error "shape mismatch assigning product into res"
        else Except.error "broadcast shape mismatch in complex multiply"
      else Except.error "kernel layer index out of range"
    else Except.error "shape mismatch in expand_v slice assignment"

/-- Model of `GravDecoder.forward` (lines 38-75): allocate
`final_res = torch.zeros_like(data_input)`, loop over the input's layer
indices, return the accumulated field volume (same shape object as the
input's). -/
noncomputable def forward (dec : GravDecoder) (x : Tensor4) : Except String Tensor4 :=
  match forwardLayers dec x (List.range x.nl) (fun _ _ _ _ => 0) with
  | Except.ok d => Except.ok ⟨x.nb, x.nl, x.nr, x.nc, d⟩
  | Except.error e => Except.error e

/-- Pointwise linear combination of two tensors of the same shape:
the specification's `alpha * X + beta * Y`. -/
def Tensor4.lin (α β : ℝ) (X Y : Tensor4) : Tensor4 :=
  ⟨X.nb, X.nl, X.nr, X.nc, fun b l r c => α * X.data b l r c + β * Y.data b l r c⟩

/-- Decimal digit characters. -/
def digitChar : ℕ → Char
  | 0 => '0' | 1 => '1' | 2 => '2' | 3 => '3' | 4 => '4'
  | 5 => '5' | 6 => '6' | 7 => '7' | 8 => '8' | 9 => '9'
  | _ => '*'

/-- Decimal digit list of a natural number (most significant first),
the rendering used by Python's default integer formatting. -/
def natDigits (n : ℕ) : List Char :=
  if _h : n < 10 then [digitChar n]
  else natDigits (n / 10) ++ [digitChar (n % 10)]
termination_by n
decreasing_by exact Nat.div_lt_self (by omega) (by omega)

/-- Numeric value of a decimal digit list, used to invert `natDigits`. -/
def digitsVal (l : List Char) : ℕ :=
  l.foldl (fun acc ch => 10 * acc + (ch.toNat - 48)) 0

/-- Decimal rendering of an integer, with a leading minus sign when
negative. -/
def intDigits (z : ℤ) : List Char :=
  if z < 0 then '-' :: natDigits z.natAbs else natDigits z.toNat

/-- Round-half-even of a rational to an integer: the rounding performed
by Python's fixed-point formatting with zero decimal places. -/
def rnd0 (q : ℚ) : ℤ :=
  if q - Int.floor q < 1 / 2 then Int.floor q
  else if 1 / 2 < q - Int.floor q then Int.floor q + 1
  else if Int.floor q % 2 = 0 then Int.floor q else Int.floor q + 1

/-- Character list of the kernel cache key of line 78:
counts formatted as plain integers, cell sizes rounded to zero decimal
places, joined by the literal pattern of the format string. -/
def keyChars (nzyx : ℕ × ℕ × ℕ) (dzyx : ℚ × ℚ × ℚ) : List Char :=
  natDigits nzyx.1 ++ 'x' :: natDigits nzyx.2.1 ++ 'x' :: natDigits nzyx.2.2 ++
  '_' :: intDigits (rnd0 dzyx.1) ++ 'x' :: intDigits (rnd0 dzyx.2.1) ++
  'x' :: intDigits (rnd0 dzyx.2.2) ++ '_' :: "lbl.pt".data

/-- The cache key string of line 78:
format pattern `countZxcountYxcountX_sizeZxsizeYxsizeX_lbl.pt` where the
sizes are formatted with zero decimal places. -/
def cacheKey (nzyx : ℕ × ℕ × ℕ) (dzyx : ℚ × ℚ × ℚ) : String :=
  String.mk (keyChars nzyx dzyx)

/-- Heap of allocated tensors; references are list indices.  Used to
state the frame properties of `forward` (which objects a call reads,
writes and allocates). -/
abbrev Heap : Type := List Tensor4

/-- One iteration of the `forward` loop (lines 49-74) replayed against
an explicit heap, given the previous `final_res` tensor `facc`: two
fresh allocations for `res` and `expand_v` (lines 49-58, cell indices
`h.length` and `h.length + 1`), the in-place slice assignment into
`expand_v` (line 59), the two in-place channel assignments into `res`
(lines 66-67, holding the complex product of lines 62-65), the fresh
tensor returned by `ifft` to which `res` is rebound (line 68), and the
in-place slice assignment into `final_res` (line 74).  Only the three
tensors the source assigns into are ever overwritten, each at its own
cell. -/
noncomputable def nextHeap (dec : GravDecoder) (x ke facc : Tensor4) (fref i : ℕ)
    (h : Heap) : Heap :=
  -- lines 49-52: res = torch.zeros((B, 2*ny, 2*nx, 2))
  let rref := List.length h
  let h1 := h ++ [(⟨x.nb, 2 * dec.ny, 2 * dec.nx, 2, fun _ _ _ _ => 0⟩ : Tensor4)]
  -- lines 53-58: expand_v = torch.zeros((B, 2*rin, 2*cin, 2))
  let eref := List.length h1
  let h2 := h1 ++ [(⟨x.nb, 2 * x.nr, 2 * x.nc, 2, fun _ _ _ _ => 0⟩ : Tensor4)]
  -- line 59: expand_v[:, :ny, :nx, 0] = x[:, i, :, :]
  let h3 := List.set h2 eref
    ⟨x.nb, 2 * x.nr, 2 * x.nc, 2,
      fun b n m ch => if ch = 0 then expandVal dec x i b n m else 0⟩
  -- lines 62-67: res[:,:,:,0] = tmp_0 ; res[:,:,:,1] = tmp_1
  let h4 := List.set h3 rref
    ⟨x.nb, 2 * dec.ny, 2 * dec.nx, 2,
      fun b a c ch =>
        if ch = 0 then (prodVal ke dec x i b a c).re
        else if ch = 1 then (prodVal ke dec x i b a c).im else 0⟩
  -- line 68: res = res.ifft(2, normalized=True), a fresh tensor
  let h5 := h4 ++ [(⟨x.nb, 2 * dec.ny, 2 * dec.nx, 2,
    fun b a c ch =>
      if ch = 0 then (layerResK ke dec x i b a c).re
      else if ch = 1 then (layerResK ke dec x i b a c).im else 0⟩ : Tensor4)]
  -- line 74: final_res[:, i, :, :] = res[:, :ny, :nx, 0]
  List.set h5 fref
    ⟨facc.nb, facc.nl, facc.nr, facc.nc,
      fun b l u v =>
        if l = i then (layerResK ke dec x i b u v).re
        else facc.data b l u v⟩

/-- The per-layer loop of `forward` replayed against an explicit heap:
`x` and `ke` are the immutable local bindings of the input volume and
the kernel cache buffer (whose heap cells the loop never writes), and
`fref` is the cell of `final_res`, read and overwritten by the final
slice assignment of each iteration (`nextHeap`).  A failing shape check
aborts with an error before the iteration's writes become
observable. -/
noncomputable def forwardProgLayers (dec : GravDecoder) (x ke : Tensor4) (fref : ℕ) :
    List ℕ → Heap → Except String Heap
  | [], h => Except.ok h
  | i :: rest, h =>
    match h[fref]? with
    | none => Except.error "invalid reference"
    | some facc =>
      if sliceAssignOk dec.ny dec.nx x.nr x.nc then
        if i < ke.nb then
          if mulOk ke x.nr x.nc then
            if resAssignOk dec.ny dec.nx ke x.nr x.nc then
              if finalAssignOk dec.ny dec.nx x.nr x.nc then
                forwardProgLayers dec x ke fref rest (nextHeap dec x ke facc fref i h)
              else Except.error "shape mismatch in final slice assignment"
            else Except.error "shape mismatch assigning product into res"
          else Except.error "broadcast shape mismatch in complex multiply"
        else Except.error "kernel layer index out of range"
      else Except.error "shape mismatch in expand_v slice assignment"

/-- Heap-level model of a `forward` call: the input volume sits in cell
`xref` and the kernel cache buffer in cell `kref` (dereferenced into
the local bindings the loop uses); `final_res` is allocated fresh
(line 47) and its reference is returned. -/
noncomputable def forwardProg (dec : GravDecoder) (h : Heap) (xref kref : ℕ) :
    Except String (Heap × ℕ) :=
  match h[xref]?, h[kref]? with
  | some x, some ke =>
    let fref := List.length h
    let h1 := h ++ [zerosLike x]
    match forwardProgLayers dec x ke fref (List.range x.nl) h1 with
    | Except.ok h2 => Except.ok (h2, fref)
    | Except.error e => Except.error e
  | _, _ => Except.error "invalid reference"

/-! ### Discrete Fourier transform lemmas -/

theorem twiddle_add (N : ℕ) (x y : ℤ) :
    twiddle N (x + y) = twiddle N x * twiddle N y := by
  unfold twiddle
  rw [← Complex.exp_add]
  congr 1
  push_cast
  ring

theorem twiddle_nat_mul (N : ℕ) (a : ℕ) (d : ℤ) :
    twiddle N ((a : ℤ) * d) = twiddle N d ^ a := by
  unfold twiddle
  rw [← Complex.exp_nat_mul]
  congr 1
  push_cast
  ring

theorem twiddle_N_mul (N : ℕ) (hN : 0 < N) (t : ℤ) :
    twiddle N ((N : ℤ) * t) = 1 := by
  have hN' : (N : ℂ) ≠ 0 := Nat.cast_ne_zero.mpr (Nat.pos_iff_ne_zero.mp hN)
  unfold twiddle
  refine Complex.exp_eq_one_iff.mpr ⟨t, ?_⟩
  push_cast
  field_simp
  ring

theorem twiddle_ne_one (N : ℕ) (hN : 0 < N) (d : ℤ) (hd : ¬ (N : ℤ) ∣ d) :
    twiddle N d ≠ 1 := by
  intro h
  rcases Complex.exp_eq_one_iff.mp h with ⟨n, hn⟩
  have hN' : (N : ℂ) ≠ 0 := Nat.cast_ne_zero.mpr (Nat.pos_iff_ne_zero.mp hN)
  have h2 : (2 * (Real.pi : ℂ) * Complex.I) ≠ 0 :=
    mul_ne_zero (mul_ne_zero two_ne_zero
      (Complex.ofReal_ne_zero.mpr Real.pi_ne_zero)) Complex.I_ne_zero
  have hcancel : (2 * (Real.pi : ℂ) * Complex.I) * (d : ℂ)
      = (2 * (Real.pi : ℂ) * Complex.I) * ((n : ℂ) * N) := by
    field_simp at hn
    linear_combination hn
  have hdc : (d : ℂ) = (n : ℂ) * N := mul_left_cancel₀ h2 hcancel
  have hdz : d = n * N := by exact_mod_cast hdc
  exact hd ⟨n, by rw [hdz]; ring⟩

theorem twiddle_geom (N : ℕ) (hN : 0 < N) (d : ℤ) :
    ∑ a ∈ Finset.range N, twiddle N ((a : ℤ) * d)
      = if (N : ℤ) ∣ d then (N : ℂ) else 0 := by
  by_cases h : (N : ℤ) ∣ d
  · rw [if_pos h]
    obtain ⟨t, rfl⟩ := h
    have hone : ∀ a ∈ Finset.range N, twiddle N ((a : ℤ) * ((N : ℤ) * t)) = 1 := by
      intro a _
      rw [show (a : ℤ) * ((N : ℤ) * t) = (N : ℤ) * ((a : ℤ) * t) from by ring]
      exact twiddle_N_mul N hN _
    rw [Finset.sum_congr rfl hone]
    simp
  · rw [if_neg h]
    have h1 : twiddle N d ≠ 1 := twiddle_ne_one N hN d h
    have hpow : ∀ a ∈ Finset.range N, twiddle N ((a : ℤ) * d) = twiddle N d ^ a :=
      fun a _ => twiddle_nat_mul N a d
    rw [Finset.sum_congr rfl hpow, geom_sum_eq h1]
    have hNd : twiddle N d ^ N = 1 := by
      rw [← twiddle_nat_mul]
      exact twiddle_N_mul N hN d
    rw [hNd]
    simp

theorem sum_select (N : ℕ) (hN : 0 < N) (d : ℤ) (g : ℕ → ℂ) :
    ∑ p ∈ Finset.range N, (if (N : ℤ) ∣ (d - p) then g p else 0)
      = g (d % (N : ℤ)).toNat := by
  have hN0 : (N : ℤ) ≠ 0 := Int.natCast_ne_zero.mpr (Nat.pos_iff_ne_zero.mp hN)
  have hmod_nonneg : 0 ≤ d % (N : ℤ) := Int.emod_nonneg d hN0
  have hmod_lt : d % (N : ℤ) < N := Int.emod_lt_of_pos d (by exact_mod_cast hN)
  have h0 : ∀ p ∈ Finset.range N, p ≠ (d % (N : ℤ)).toNat →
      (if (N : ℤ) ∣ (d - p) then g p else 0) = 0 := by
    intro p hp hne
    rw [if_neg]
    rintro ⟨k, hk⟩
    apply hne
    have hp' : (p : ℤ) < N := by exact_mod_cast Finset.mem_range.mp hp
    have hmodp : d % (N : ℤ) = (p : ℤ) := by
      have hd : d = (p : ℤ) + (N : ℤ) * k := by omega
      rw [hd, Int.add_mul_emod_self_left]
      exact Int.emod_eq_of_lt (Int.natCast_nonneg p) hp'
    omega
  have h1 : (d % (N : ℤ)).toNat ∉ Finset.range N →
      (if (N : ℤ) ∣ (d - ((d % (N : ℤ)).toNat : ℕ)) then g (d % (N : ℤ)).toNat else 0) = 0 := by
    intro hmem
    exact absurd (Finset.mem_range.mpr (by omega)) hmem
  rw [Finset.sum_eq_single _ h0 h1]
  have hdvd : (N : ℤ) ∣ (d - (((d % (N : ℤ)).toNat : ℕ) : ℤ)) := by
    refine ⟨d / N, ?_⟩
    have htn : (((d % (N : ℤ)).toNat : ℤ)) = d % (N : ℤ) := Int.toNat_of_nonneg hmod_nonneg
    rw [htn, Int.emod_def]
    ring
  rw [if_pos hdvd]

theorem ft2_delta (N M : ℕ) (r c : ℕ) (hr : r < N) (hc : c < M) (a b : ℕ) :
    ft2 (-1) N M (fun n m => if n = r ∧ m = c then 1 else 0) a b
      = twiddle N (-1 * a * r) * twiddle M (-1 * b * c) := by
  unfold ft2
  have houter0 : ∀ n ∈ Finset.range N, n ≠ r →
      (∑ m ∈ Finset.range M, (if n = r ∧ m = c then (1 : ℂ) else 0)
        * twiddle N (-1 * a * n) * twiddle M (-1 * b * m)) = 0 := by
    intro n _ hn
    apply Finset.sum_eq_zero
    intro m _
    simp [hn]
  have houter1 : r ∉ Finset.range N →
      (∑ m ∈ Finset.range M, (if r = r ∧ m = c then (1 : ℂ) else 0)
        * twiddle N (-1 * a * r) * twiddle M (-1 * b * m)) = 0 :=
    fun hmem => absurd (Finset.mem_range.mpr hr) hmem
  rw [Finset.sum_eq_single _ houter0 houter1]
  have hinner0 : ∀ m ∈ Finset.range M, m ≠ c →
      (if r = r ∧ m = c then (1 : ℂ) else 0)
        * twiddle N (-1 * a * r) * twiddle M (-1 * b * m) = 0 := by
    intro m _ hm
    simp [hm]
  have hinner1 : c ∉ Finset.range M →
      (if r = r ∧ c = c then (1 : ℂ) else 0)
        * twiddle N (-1 * a * r) * twiddle M (-1 * b * c) = 0 :=
    fun hmem => absurd (Finset.mem_range.mpr hc) hmem
  rw [Finset.sum_eq_single _ hinner0 hinner1]
  simp

theorem normFactor_cancel (N M : ℕ) (hN : 0 < N) (hM : 0 < M) :
    ((normFactor N M : ℝ) : ℂ) * ((normFactor N M : ℝ) : ℂ) * ((N : ℂ) * M) = 1 := by
  have hx : (0 : ℝ) ≤ (N : ℝ) * M := by positivity
  have hx0 : (N : ℝ) * M ≠ 0 := by positivity
  have h1 : (normFactor N M) * (normFactor N M) * ((N : ℝ) * M) = 1 := by
    unfold normFactor
    rw [← mul_inv, Real.mul_self_sqrt hx, inv_mul_cancel₀ hx0]
  exact_mod_cast h1

theorem dft_point (N : ℕ) (hN : 0 < N) (r u : ℕ) (G : ℕ → ℂ) :
    ∑ a ∈ Finset.range N,
        (twiddle N (-1 * a * r) * ∑ p ∈ Finset.range N, G p * twiddle N (-1 * a * p))
          * twiddle N (1 * u * a)
      = (N : ℂ) * G (((u : ℤ) - r) % (N : ℤ)).toNat := by
  calc
    ∑ a ∈ Finset.range N,
        (twiddle N (-1 * a * r) * ∑ p ∈ Finset.range N, G p * twiddle N (-1 * a * p))
          * twiddle N (1 * u * a)
        = ∑ a ∈ Finset.range N, ∑ p ∈ Finset.range N,
            G p * twiddle N ((a : ℤ) * ((u : ℤ) - r - p)) := by
          refine Finset.sum_congr rfl fun a _ => ?_
          rw [Finset.mul_sum, Finset.sum_mul]
          refine Finset.sum_congr rfl fun p _ => ?_
          have hsplit : twiddle N (-1 * a * r) * (G p * twiddle N (-1 * a * p))
              * twiddle N (1 * u * a)
              = G p * (twiddle N (-1 * a * r) * twiddle N (-1 * a * p)
                  * twiddle N (1 * u * a)) := by ring
          rw [hsplit, ← twiddle_add, ← twiddle_add]
          congr 1
          ring
    _ = ∑ p ∈ Finset.range N, G p *
          ∑ a ∈ Finset.range N, twiddle N ((a : ℤ) * ((u : ℤ) - r - p)) := by
          rw [Finset.sum_comm]
          exact Finset.sum_congr rfl fun p _ => (Finset.mul_sum _ _ _).symm
    _ = ∑ p ∈ Finset.range N,
          (if (N : ℤ) ∣ (((u : ℤ) - r) - p) then (N : ℂ) * G p else 0) := by
          refine Finset.sum_congr rfl fun p _ => ?_
          rw [twiddle_geom N hN]
          split_ifs
          · ring
          · simp
    _ = (N : ℂ) * G (((u : ℤ) - r) % (N : ℤ)).toNat :=
          sum_select N hN ((u : ℤ) - r) (fun p => (N : ℂ) * G p)

theorem ft2_const_mul (s : ℤ) (N M : ℕ) (γ : ℂ) (f : ℕ → ℕ → ℂ) (a b : ℕ) :
    ft2 s N M (fun n m => γ * f n m) a b = γ * ft2 s N M f a b := by
  unfold ft2
  rw [Finset.mul_sum]
  refine Finset.sum_congr rfl fun n _ => ?_
  rw [Finset.mul_sum]
  refine Finset.sum_congr rfl fun m _ => ?_
  ring

theorem conv_point (N M : ℕ) (hN : 0 < N) (hM : 0 < M) (kf : ℕ → ℕ → ℂ)
    (r c u v : ℕ) (hr : r < N) (hc : c < M) :
    idft2 N M (fun a b =>
        dft2 N M (fun n m => if n = r ∧ m = c then 1 else 0) a b * dft2u N M kf a b) u v
      = kf (((u : ℤ) - r) % (N : ℤ)).toNat (((v : ℤ) - c) % (M : ℤ)).toNat := by
  have hswap : ∀ a b : ℕ, ft2 (-1) N M kf a b
      = ∑ q ∈ Finset.range M,
          (∑ p ∈ Finset.range N, kf p q * twiddle N (-1 * a * p)) * twiddle M (-1 * b * q) := by
    intro a b
    unfold ft2
    rw [Finset.sum_comm]
    exact Finset.sum_congr rfl fun q _ => (Finset.sum_mul _ _ _).symm
  have hq : ∀ a : ℕ, ∑ b ∈ Finset.range M,
      ((twiddle N (-1 * a * r) * twiddle M (-1 * b * c)) * ft2 (-1) N M kf a b)
        * twiddle N (1 * u * a) * twiddle M (1 * v * b)
      = (twiddle N (-1 * a * r) * ((M : ℂ) *
          ∑ p ∈ Finset.range N, kf p (((v : ℤ) - c) % (M : ℤ)).toNat
            * twiddle N (-1 * a * p)))
        * twiddle N (1 * u * a) := by
    intro a
    calc
      ∑ b ∈ Finset.range M,
          ((twiddle N (-1 * a * r) * twiddle M (-1 * b * c)) * ft2 (-1) N M kf a b)
            * twiddle N (1 * u * a) * twiddle M (1 * v * b)
          = ∑ b ∈ Finset.range M,
              ((twiddle M (-1 * b * c) * ∑ q ∈ Finset.range M,
                  (∑ p ∈ Finset.range N, kf p q * twiddle N (-1 * a * p))
                    * twiddle M (-1 * b * q))
                * twiddle M (1 * v * b))
                * (twiddle N (-1 * a * r) * twiddle N (1 * u * a)) := by
            refine Finset.sum_congr rfl fun b _ => ?_
            rw [hswap a b]
            ring
      _ = (∑ b ∈ Finset.range M,
              (twiddle M (-1 * b * c) * ∑ q ∈ Finset.range M,
                  (∑ p ∈ Finset.range N, kf p q * twiddle N (-1 * a * p))
                    * twiddle M (-1 * b * q))
                * twiddle M (1 * v * b))
            * (twiddle N (-1 * a * r) * twiddle N (1 * u * a)) := by
            rw [← Finset.sum_mul]
      _ = ((M : ℂ) * ∑ p ∈ Finset.range N,
              kf p (((v : ℤ) - c) % (M : ℤ)).toNat * twiddle N (-1 * a * p))
            * (twiddle N (-1 * a * r) * twiddle N (1 * u * a)) := by
            rw [dft_point M hM c v
              (fun q => ∑ p ∈ Finset.range N, kf p q * twiddle N (-1 * a * p))]
      _ = (twiddle N (-1 * a * r) * ((M : ℂ) *
              ∑ p ∈ Finset.range N, kf p (((v : ℤ) - c) % (M : ℤ)).toNat
                * twiddle N (-1 * a * p)))
            * twiddle N (1 * u * a) := by ring
  have hmain : ft2 1 N M
      (fun a b => (twiddle N (-1 * a * r) * twiddle M (-1 * b * c)) * ft2 (-1) N M kf a b)
      u v
      = (M : ℂ) * ((N : ℂ) *
          kf (((u : ℤ) - r) % (N : ℤ)).toNat (((v : ℤ) - c) % (M : ℤ)).toNat) := by
    unfold ft2
    calc
      ∑ a ∈ Finset.range N, ∑ b ∈ Finset.range M,
          ((twiddle N (-1 * a * r) * twiddle M (-1 * b * c)) * ft2 (-1) N M kf a b)
            * twiddle N (1 * u * a) * twiddle M (1 * v * b)
          = ∑ a ∈ Finset.range N,
              (twiddle N (-1 * a * r) * ((M : ℂ) *
                ∑ p ∈ Finset.range N, kf p (((v : ℤ) - c) % (M : ℤ)).toNat
                  * twiddle N (-1 * a * p)))
              * twiddle N (1 * u * a) :=
            Finset.sum_congr rfl fun a _ => hq a
      _ = (M : ℂ) * ∑ a ∈ Finset.range N,
              (twiddle N (-1 * a * r) *
                ∑ p ∈ Finset.range N, kf p (((v : ℤ) - c) % (M : ℤ)).toNat
                  * twiddle N (-1 * a * p))
              * twiddle N (1 * u * a) := by
            rw [Finset.mul_sum]
            refine Finset.sum_congr rfl fun a _ => ?_
            ring
      _ = (M : ℂ) * ((N : ℂ) *
            kf (((u : ℤ) - r) % (N : ℤ)).toNat (((v : ℤ) - c) % (M : ℤ)).toNat) := by
            rw [dft_point N hN r u
              (fun p => kf p (((v : ℤ) - c) % (M : ℤ)).toNat)]
  unfold idft2 dft2 dft2u
  have hF : (fun a b : ℕ =>
        ((normFactor N M : ℂ)
          * ft2 (-1) N M (fun n m => if n = r ∧ m = c then 1 else 0) a b)
          * ft2 (-1) N M kf a b)
      = fun a b : ℕ => (normFactor N M : ℂ) *
          ((twiddle N (-1 * a * r) * twiddle M (-1 * b * c)) * ft2 (-1) N M kf a b) := by
    funext a b
    rw [ft2_delta N M r c hr hc a b]
    ring
  rw [hF, ft2_const_mul, hmain]
  have hcancel := normFactor_cancel N M hN hM
  calc
    ((normFactor N M : ℝ) : ℂ) * (((normFactor N M : ℝ) : ℂ) * ((M : ℂ) * ((N : ℂ) *
        kf (((u : ℤ) - r) % (N : ℤ)).toNat (((v : ℤ) - c) % (M : ℤ)).toNat)))
        = (((normFactor N M : ℝ) : ℂ) * ((normFactor N M : ℝ) : ℂ) * ((N : ℂ) * M))
          * kf (((u : ℤ) - r) % (N : ℤ)).toNat (((v : ℤ) - c) % (M : ℤ)).toNat := by
          ring
    _ = kf (((u : ℤ) - r) % (N : ℤ)).toNat (((v : ℤ) - c) % (M : ℤ)).toNat := by
          rw [hcancel, one_mul]

theorem ft2_zero (s : ℤ) (N M : ℕ) (a b : ℕ) :
    ft2 s N M (fun _ _ => 0) a b = 0 := by
  unfold ft2
  simp

theorem ft2_lin (s : ℤ) (N M : ℕ) (γ δ : ℂ) (f g : ℕ → ℕ → ℂ) (a b : ℕ) :
    ft2 s N M (fun n m => γ * f n m + δ * g n m) a b
      = γ * ft2 s N M f a b + δ * ft2 s N M g a b := by
  unfold ft2
  rw [Finset.mul_sum, Finset.mul_sum, ← Finset.sum_add_distrib]
  refine Finset.sum_congr rfl fun n _ => ?_
  rw [Finset.mul_sum, Finset.mul_sum, ← Finset.sum_add_distrib]
  refine Finset.sum_congr rfl fun m _ => ?_
  ring

theorem shift_index (n : ℕ) (r u : ℕ) (hr : r < n) (hu : u < n) :
    (((u : ℤ) - r) % ((2 * n : ℕ) : ℤ)).toNat
      = if r ≤ u then u - r else 2 * n + u - r := by
  by_cases h : r ≤ u
  · rw [if_pos h]
    have he : ((u : ℤ) - r) % ((2 * n : ℕ) : ℤ) = (u : ℤ) - r :=
      Int.emod_eq_of_lt (by omega) (by push_cast; omega)
    rw [he]
    omega
  · rw [if_neg h]
    have h1 := @Int.add_mul_emod_self_left ((u : ℤ) - r) (((2 * n : ℕ)) : ℤ) 1
    have h2 : ((u : ℤ) - r + ((2 * n : ℕ) : ℤ) * 1) % ((2 * n : ℕ) : ℤ)
        = (u : ℤ) - r + ((2 * n : ℕ) : ℤ) * 1 :=
      Int.emod_eq_of_lt (by push_cast; omega) (by push_cast; omega)
    rw [h2] at h1
    rw [← h1]
    push_cast
    omega

theorem padK_shift (gz : ℕ → ℕ → ℝ) (ny nx i : ℕ) (r c u v : ℕ)
    (hr : r < ny) (hc : c < nx) (hu : u < ny) (hv : v < nx) :
    padK gz ny nx i ((((u : ℤ) - r) % ((2 * ny : ℕ) : ℤ)).toNat)
        ((((v : ℤ) - c) % ((2 * nx : ℕ) : ℤ)).toNat)
      = if r ≤ u ∧ c ≤ v then (kernelMatrix gz nx i (u - r) (v - c) : ℂ) else 0 := by
  rw [shift_index ny r u hr hu, shift_index nx c v hc hv]
  unfold padK
  by_cases h1 : r ≤ u <;> by_cases h2 : c ≤ v
  · rw [if_pos h1, if_pos h2,
      if_pos (show u - r < ny ∧ v - c < nx from ⟨by omega, by omega⟩), if_pos ⟨h1, h2⟩]
  · rw [if_pos h1, if_neg h2,
      if_neg (show ¬(u - r < ny ∧ 2 * nx + v - c < nx) from by omega),
      if_neg (show ¬(r ≤ u ∧ c ≤ v) from by tauto)]
  · rw [if_neg h1, if_pos h2,
      if_neg (show ¬(2 * ny + u - r < ny ∧ v - c < nx) from by omega),
      if_neg (show ¬(r ≤ u ∧ c ≤ v) from by tauto)]
  · rw [if_neg h1, if_neg h2,
      if_neg (show ¬(2 * ny + u - r < ny ∧ 2 * nx + v - c < nx) from by omega),
      if_neg (show ¬(r ≤ u ∧ c ≤ v) from by tauto)]

theorem kcplx_gen (gz : ℕ → ℕ → ℝ) (nz ny nx : ℕ) (i a b : ℕ) :
    kcplx (genKernelEigs gz nz ny nx) i a b
      = dft2u (2 * ny) (2 * nx) (padK gz ny nx i) a b := by
  unfold kcplx genKernelEigs
  simp [Complex.re_add_im]

/-! ### Characterization of the forward loop -/

theorem sliceAssignOk_self (ny nx : ℕ) : sliceAssignOk ny nx ny nx = true := by
  unfold sliceAssignOk
  have h1 : min ny (2 * ny) = ny := by omega
  have h2 : min nx (2 * nx) = nx := by omega
  rw [h1, h2]
  simp

theorem mulOk_self (ke : Tensor4) (ny nx : ℕ)
    (h1 : ke.nl = 2 * ny) (h2 : ke.nr = 2 * nx) : mulOk ke ny nx = true := by
  unfold mulOk bcastOk
  rw [h1, h2]
  simp

theorem resAssignOk_self (ny nx : ℕ) (ke : Tensor4)
    (h1 : ke.nl = 2 * ny) (h2 : ke.nr = 2 * nx) : resAssignOk ny nx ke ny nx = true := by
  unfold resAssignOk
  rw [h1, h2]
  simp

theorem finalAssignOk_self (ny nx : ℕ) : finalAssignOk ny nx ny nx = true := by
  unfold finalAssignOk
  simp

theorem forwardLayers_ok (dec : GravDecoder) (x : Tensor4)
    (hR : x.nr = dec.ny) (hC : x.nc = dec.nx)
    (hke1 : dec.kernelEigs.nl = 2 * dec.ny) (hke2 : dec.kernelEigs.nr = 2 * dec.nx) :
    ∀ (l : List ℕ) (acc : ℕ → ℕ → ℕ → ℕ → ℝ),
      (∀ i ∈ l, i < dec.kernelEigs.nb) →
      forwardLayers dec x l acc = Except.ok (fun b lay u v =>
        if lay ∈ l then (layerRes dec x lay b u v).re else acc b lay u v) := by
  intro l
  induction l with
  | nil =>
    intro acc _
    refine congrArg Except.ok ?_
    funext b lay u v
    simp [forwardLayers]
  | cons i rest ih =>
    intro acc hmem
    have hi : i < dec.kernelEigs.nb := hmem i (List.mem_cons_self i rest)
    rw [forwardLayers, hR, hC, sliceAssignOk_self, if_pos hi,
      mulOk_self _ _ _ hke1 hke2, resAssignOk_self _ _ _ hke1 hke2, finalAssignOk_self]
    simp only [if_true]
    rw [ih _ (fun j hj => hmem j (List.mem_cons_of_mem _ hj))]
    refine congrArg Except.ok ?_
    funext b lay u v
    by_cases h1 : lay ∈ rest <;> by_cases h2 : lay = i <;>
      simp [h1, h2, List.mem_cons]

theorem forward_ok (dec : GravDecoder) (x : Tensor4)
    (hR : x.nr = dec.ny) (hC : x.nc = dec.nx)
    (hke1 : dec.kernelEigs.nl = 2 * dec.ny) (hke2 : dec.kernelEigs.nr = 2 * dec.nx)
    (hL : x.nl ≤ dec.kernelEigs.nb) :
    forward dec x = Except.ok ⟨x.nb, x.nl, x.nr, x.nc,
      fun b lay u v => if lay < x.nl then (layerRes dec x lay b u v).re else 0⟩ := by
  unfold forward
  rw [forwardLayers_ok dec x hR hC hke1 hke2 (List.range x.nl) _
    (fun i hi => lt_of_lt_of_le (List.mem_range.mp hi) hL)]
  refine congrArg Except.ok ?_
  refine congrArg (Tensor4.mk x.nb x.nl x.nr x.nc) ?_
  funext b lay u v
  simp [List.mem_range]

theorem forwardLayers_err_rowcol (dec : GravDecoder) (x : Tensor4)
    (hke1 : dec.kernelEigs.nl = 2 * dec.ny) (hke2 : dec.kernelEigs.nr = 2 * dec.nx)
    (h : x.nr ≠ dec.ny ∨ x.nc ≠ dec.nx) (i : ℕ) (rest : List ℕ)
    (acc : ℕ → ℕ → ℕ → ℕ → ℝ) :
    ∃ msg, forwardLayers dec x (i :: rest) acc = Except.error msg := by
  rw [forwardLayers]
  cases hsl : sliceAssignOk dec.ny dec.nx x.nr x.nc with
  | false => exact ⟨_, rfl⟩
  | true =>
    simp only [if_true]
    by_cases hi : i < dec.kernelEigs.nb
    · rw [if_pos hi]
      have hm : mulOk dec.kernelEigs x.nr x.nc = false := by
        cases hmv : mulOk dec.kernelEigs x.nr x.nc with
        | false => rfl
        | true =>
          exfalso
          unfold mulOk bcastOk at hmv
          simp only [Bool.and_eq_true, Bool.or_eq_true, beq_iff_eq, hke1, hke2] at hmv
          omega
      rw [hm]
      exact ⟨_, rfl⟩
    · rw [if_neg hi]
      exact ⟨_, rfl⟩

theorem forwardLayers_err_layer (dec : GravDecoder) (x : Tensor4)
    (hR : x.nr = dec.ny) (hC : x.nc = dec.nx)
    (hke1 : dec.kernelEigs.nl = 2 * dec.ny) (hke2 : dec.kernelEigs.nr = 2 * dec.nx) :
    ∀ (l : List ℕ) (acc : ℕ → ℕ → ℕ → ℕ → ℝ),
      (∃ j ∈ l, dec.kernelEigs.nb ≤ j) →
      ∃ msg, forwardLayers dec x l acc = Except.error msg := by
  intro l
  induction l with
  | nil =>
    rintro acc ⟨j, hj, _⟩
    simp at hj
  | cons i rest ih =>
    rintro acc ⟨j, hj, hjge⟩
    rw [forwardLayers, hR, hC, sliceAssignOk_self]
    simp only [if_true]
    by_cases hi : i < dec.kernelEigs.nb
    · rw [if_pos hi, mulOk_self _ _ _ hke1 hke2, resAssignOk_self _ _ _ hke1 hke2,
        finalAssignOk_self]
      simp only [if_true]
      refine ih _ ⟨j, ?_, hjge⟩
      rcases List.mem_cons.mp hj with hji | hjr
      · omega
      · exact hjr
    · rw [if_neg hi]
      exact ⟨_, rfl⟩

/-! ### Per-layer value lemmas -/

theorem layerField_lin (ny nx rin cin : ℕ) (kl : ℕ → ℕ → ℂ) (α β : ℝ)
    (s1 s2 : ℕ → ℕ → ℝ) (u v : ℕ) :
    layerField ny nx rin cin kl (fun n m => α * s1 n m + β * s2 n m) u v
      = (α : ℂ) * layerField ny nx rin cin kl s1 u v
        + (β : ℂ) * layerField ny nx rin cin kl s2 u v := by
  unfold layerField
  have hpad : (fun n m => (((if n < ny ∧ m < nx then α * s1 n m + β * s2 n m else 0 : ℝ)) : ℂ))
      = fun n m => (α : ℂ) * (((if n < ny ∧ m < nx then s1 n m else 0 : ℝ)) : ℂ)
          + (β : ℂ) * (((if n < ny ∧ m < nx then s2 n m else 0 : ℝ)) : ℂ) := by
    funext n m
    split_ifs with h
    · push_cast
      ring
    · push_cast
      ring
  rw [hpad]
  have hfun : (fun a c => dft2 (2 * rin) (2 * cin)
        (fun n m => (α : ℂ) * (((if n < ny ∧ m < nx then s1 n m else 0 : ℝ)) : ℂ)
          + (β : ℂ) * (((if n < ny ∧ m < nx then s2 n m else 0 : ℝ)) : ℂ)) a c * kl a c)
      = fun a c => (α : ℂ) * (dft2 (2 * rin) (2 * cin)
            (fun n m => (((if n < ny ∧ m < nx then s1 n m else 0 : ℝ)) : ℂ)) a c * kl a c)
          + (β : ℂ) * (dft2 (2 * rin) (2 * cin)
            (fun n m => (((if n < ny ∧ m < nx then s2 n m else 0 : ℝ)) : ℂ)) a c * kl a c) := by
    funext a c
    unfold dft2
    rw [ft2_lin]
    ring
  rw [hfun]
  unfold idft2
  rw [ft2_lin]
  ring

theorem layerField_zero (ny nx rin cin : ℕ) (kl : ℕ → ℕ → ℂ)
    (s : ℕ → ℕ → ℝ) (u v : ℕ)
    (hz : ∀ n m, n < ny → m < nx → s n m = 0) :
    layerField ny nx rin cin kl s u v = 0 := by
  unfold layerField
  have hpad : (fun n m => (((if n < ny ∧ m < nx then s n m else 0 : ℝ)) : ℂ))
      = fun _ _ => (0 : ℂ) := by
    funext n m
    split_ifs with h
    · rw [hz n m h.1 h.2]
      norm_num
    · norm_num
  rw [hpad]
  have hfun : (fun a c => dft2 (2 * rin) (2 * cin) (fun _ _ => (0 : ℂ)) a c * kl a c)
      = fun _ _ => (0 : ℂ) := by
    funext a c
    unfold dft2
    rw [ft2_zero]
    ring
  rw [hfun]
  unfold idft2
  rw [ft2_zero]
  ring

theorem layerField_congr (ny nx rin cin : ℕ) (kl : ℕ → ℕ → ℂ)
    (s1 s2 : ℕ → ℕ → ℝ) (u v : ℕ)
    (hs : ∀ n m, n < ny → m < nx → s1 n m = s2 n m) :
    layerField ny nx rin cin kl s1 u v = layerField ny nx rin cin kl s2 u v := by
  unfold layerField
  have hpad : (fun n m => (((if n < ny ∧ m < nx then s1 n m else 0 : ℝ)) : ℂ))
      = fun n m => (((if n < ny ∧ m < nx then s2 n m else 0 : ℝ)) : ℂ) := by
    funext n m
    split_ifs with h
    · rw [hs n m h.1 h.2]
    · rfl
  rw [hpad]

theorem layerField_impulse (ny nx : ℕ) (hny : 0 < ny) (hnx : 0 < nx)
    (gz : ℕ → ℕ → ℝ) (i : ℕ) (s : ℕ → ℕ → ℝ) (r c : ℕ) (hr : r < ny) (hc : c < nx)
    (hs : ∀ n m, n < ny → m < nx → s n m = if n = r ∧ m = c then 1 else 0)
    (u v : ℕ) (hu : u < ny) (hv : v < nx) :
    layerField ny nx ny nx (dft2u (2 * ny) (2 * nx) (padK gz ny nx i)) s u v
      = if r ≤ u ∧ c ≤ v then (kernelMatrix gz nx i (u - r) (v - c) : ℂ) else 0 := by
  unfold layerField
  have hpad : (fun n m => (((if n < ny ∧ m < nx then s n m else 0 : ℝ)) : ℂ))
      = fun n m => if n = r ∧ m = c then (1 : ℂ) else 0 := by
    funext n m
    by_cases h1 : n < ny ∧ m < nx
    · rw [if_pos h1, hs n m h1.1 h1.2]
      by_cases h2 : n = r ∧ m = c
      · rw [if_pos h2, if_pos h2]
        norm_num
      · rw [if_neg h2, if_neg h2]
        norm_num
    · rw [if_neg h1, if_neg]
      · norm_num
      · rintro ⟨rfl, rfl⟩
        exact h1 ⟨hr, hc⟩
  rw [hpad]
  rw [conv_point (2 * ny) (2 * nx) (by omega) (by omega) (padK gz ny nx i) r c u v
    (by omega) (by omega)]
  exact padK_shift gz ny nx i r c u v hr hc hu hv

/-! ### Claim theorems -/

/-- C1: for a density volume that is zero everywhere except one
unit-density cell at row `r`, column `c` of layer `i`, the forward
operation's output at layer `i` equals exactly the per-layer kernel
matrix of evaluator responses, shifted so its peak (entry `(0,0)`)
aligns at `(r, c)`; every other position of layer `i` follows the same
shifted kernel, zero beyond its support — free of circular
wraparound. -/
theorem C1_single_cell_impulse_response
    (gz : ℕ → ℕ → ℝ) (dz dy dx : ℚ) (nz ny nx : ℕ)
    (hny : 0 < ny) (hnx : 0 < nx)
    (B i r c : ℕ) (hi : i < nz) (hr : r < ny) (hc : c < nx) :
    ∃ y, forward (mkGravDecoder (dz, dy, dx) (nz, ny, nx) gz)
        ⟨B, nz, ny, nx, fun _ l n m => if l = i ∧ n = r ∧ m = c then 1 else 0⟩
      = Except.ok y ∧
      y.shape = (B, nz, ny, nx) ∧
      ∀ b u v, u < ny → v < nx →
        y.data b i u v
          = if r ≤ u ∧ c ≤ v then kernelMatrix gz nx i (u - r) (v - c) else 0 := by
  have hfwd := forward_ok (mkGravDecoder (dz, dy, dx) (nz, ny, nx) gz)
    ⟨B, nz, ny, nx, fun _ l n m => if l = i ∧ n = r ∧ m = c then 1 else 0⟩
    rfl rfl rfl rfl (le_refl nz)
  refine ⟨_, hfwd, rfl, ?_⟩
  intro b u v hu hv
  show (if i < nz then
      (layerRes (mkGravDecoder (dz, dy, dx) (nz, ny, nx) gz)
        ⟨B, nz, ny, nx, fun _ l n m => if l = i ∧ n = r ∧ m = c then 1 else 0⟩ i b u v).re
    else 0) = _
  rw [if_pos hi]
  have hkl : kcplx (mkGravDecoder (dz, dy, dx) (nz, ny, nx) gz).kernelEigs i
      = dft2u (2 * ny) (2 * nx) (padK gz ny nx i) := by
    funext a b'
    exact kcplx_gen gz nz ny nx i a b'
  have hlr : layerRes (mkGravDecoder (dz, dy, dx) (nz, ny, nx) gz)
      ⟨B, nz, ny, nx, fun _ l n m => if l = i ∧ n = r ∧ m = c then 1 else 0⟩ i b u v
      = layerField ny nx ny nx (dft2u (2 * ny) (2 * nx) (padK gz ny nx i))
          (fun n m => if i = i ∧ n = r ∧ m = c then (1 : ℝ) else 0) u v := by
    unfold layerRes layerResK
    rw [hkl]
    rfl
  rw [hlr, layerField_impulse ny nx hny hnx gz i _ r c hr hc
    (by intro n m _ _; simp) u v hu hv]
  split_ifs with hcond
  · exact Complex.ofReal_re _
  · exact Complex.zero_re

/-- C1 witness: the impulse-response theorem applied at a concrete
1-layer 1x1 geometry. -/
theorem C1_single_cell_impulse_response_witness :
    (0 < 1) ∧
    ∃ y, forward (mkGravDecoder (50, 100, 100) (1, 1, 1) (fun _ _ => 0))
        ⟨1, 1, 1, 1, fun _ l n m => if l = 0 ∧ n = 0 ∧ m = 0 then 1 else 0⟩
      = Except.ok y ∧
      y.shape = (1, 1, 1, 1) ∧
      ∀ b u v, u < 1 → v < 1 →
        y.data b 0 u v
          = if 0 ≤ u ∧ 0 ≤ v then kernelMatrix (fun _ _ => 0) 1 0 (u - 0) (v - 0) else 0 :=
  ⟨Nat.one_pos,
    C1_single_cell_impulse_response (fun _ _ => 0) 50 100 100 1 1 1
      Nat.one_pos Nat.one_pos 1 0 0 0 Nat.one_pos Nat.one_pos Nat.one_pos⟩

/-- C2: the forward operation is linear in the density volume: over the
exact-arithmetic embedding, `forward (alpha*X + beta*Y)` equals
`alpha * forward X + beta * forward Y` entrywise, for volumes of the
same valid shape. -/
theorem C2_linearity (gz : ℕ → ℕ → ℝ) (dz dy dx : ℚ) (nz ny nx : ℕ)
    (α β : ℝ) (X Y : Tensor4)
    (hyl : Y.nl = X.nl) (hyr : Y.nr = X.nr) (hyc : Y.nc = X.nc)
    (hR : X.nr = ny) (hC : X.nc = nx) (hL : X.nl ≤ nz) :
    ∃ z zx zy,
      forward (mkGravDecoder (dz, dy, dx) (nz, ny, nx) gz) (Tensor4.lin α β X Y)
        = Except.ok z ∧
      forward (mkGravDecoder (dz, dy, dx) (nz, ny, nx) gz) X = Except.ok zx ∧
      forward (mkGravDecoder (dz, dy, dx) (nz, ny, nx) gz) Y = Except.ok zy ∧
      ∀ b l u v, z.data b l u v = α * zx.data b l u v + β * zy.data b l u v := by
  have hfZ := forward_ok (mkGravDecoder (dz, dy, dx) (nz, ny, nx) gz)
    (Tensor4.lin α β X Y) hR hC rfl rfl hL
  have hfX := forward_ok (mkGravDecoder (dz, dy, dx) (nz, ny, nx) gz) X hR hC rfl rfl hL
  have hfY := forward_ok (mkGravDecoder (dz, dy, dx) (nz, ny, nx) gz) Y
    (hyr.trans hR) (hyc.trans hC) rfl rfl (by rw [hyl]; exact hL)
  refine ⟨_, _, _, hfZ, hfX, hfY, ?_⟩
  intro b l u v
  show (if l < (Tensor4.lin α β X Y).nl then
      (layerRes (mkGravDecoder (dz, dy, dx) (nz, ny, nx) gz) (Tensor4.lin α β X Y) l b u v).re
    else 0)
    = α * (if l < X.nl then
        (layerRes (mkGravDecoder (dz, dy, dx) (nz, ny, nx) gz) X l b u v).re else 0)
      + β * (if l < Y.nl then
        (layerRes (mkGravDecoder (dz, dy, dx) (nz, ny, nx) gz) Y l b u v).re else 0)
  rw [show (Tensor4.lin α β X Y).nl = X.nl from rfl, hyl]
  by_cases hl : l < X.nl
  · rw [if_pos hl, if_pos hl, if_pos hl]
    have hlin : layerRes (mkGravDecoder (dz, dy, dx) (nz, ny, nx) gz)
        (Tensor4.lin α β X Y) l b u v
        = (α : ℂ) * layerRes (mkGravDecoder (dz, dy, dx) (nz, ny, nx) gz) X l b u v
          + (β : ℂ) * layerRes (mkGravDecoder (dz, dy, dx) (nz, ny, nx) gz) Y l b u v := by
      unfold layerRes layerResK
      rw [show (Tensor4.lin α β X Y).nr = X.nr from rfl,
        show (Tensor4.lin α β X Y).nc = X.nc from rfl,
        show (Tensor4.lin α β X Y).data b l
          = fun n m => α * X.data b l n m + β * Y.data b l n m from rfl,
        layerField_lin, hyr, hyc]
    rw [hlin]
    simp [Complex.add_re, Complex.mul_re, Complex.ofReal_re, Complex.ofReal_im]
  · rw [if_neg hl, if_neg hl, if_neg hl]
    ring

/-- C2 witness: linearity applied at a concrete geometry and concrete
volumes. -/
theorem C2_linearity_witness :
    ((1 : ℕ) = 1) ∧
    ∃ z zx zy,
      forward (mkGravDecoder (50, 100, 100) (1, 1, 1) (fun _ _ => 0))
          (Tensor4.lin 2 3 ⟨1, 1, 1, 1, fun _ _ _ _ => 1⟩ ⟨1, 1, 1, 1, fun _ _ _ _ => 5⟩)
        = Except.ok z ∧
      forward (mkGravDecoder (50, 100, 100) (1, 1, 1) (fun _ _ => 0))
          ⟨1, 1, 1, 1, fun _ _ _ _ => 1⟩ = Except.ok zx ∧
      forward (mkGravDecoder (50, 100, 100) (1, 1, 1) (fun _ _ => 0))
          ⟨1, 1, 1, 1, fun _ _ _ _ => 5⟩ = Except.ok zy ∧
      ∀ b l u v, z.data b l u v = 2 * zx.data b l u v + 3 * zy.data b l u v :=
  ⟨rfl, C2_linearity (fun _ _ => 0) 50 100 100 1 1 1 2 3
    ⟨1, 1, 1, 1, fun _ _ _ _ => 1⟩ ⟨1, 1, 1, 1, fun _ _ _ _ => 5⟩
    rfl rfl rfl rfl rfl (le_refl 1)⟩

/-- C3: layer noninterference — two density volumes that agree on every
depth layer except layer `i` produce identical output fields at every
layer `j` different from `i`. -/
theorem C3_layer_noninterference (gz : ℕ → ℕ → ℝ) (dz dy dx : ℚ) (nz ny nx : ℕ)
    (i : ℕ) (X Y : Tensor4)
    (hyl : Y.nl = X.nl) (hyr : Y.nr = X.nr) (hyc : Y.nc = X.nc)
    (hR : X.nr = ny) (hC : X.nc = nx) (hL : X.nl ≤ nz)
    (hd : ∀ b l n m, l ≠ i → n < ny → m < nx → X.data b l n m = Y.data b l n m) :
    ∃ zx zy,
      forward (mkGravDecoder (dz, dy, dx) (nz, ny, nx) gz) X = Except.ok zx ∧
      forward (mkGravDecoder (dz, dy, dx) (nz, ny, nx) gz) Y = Except.ok zy ∧
      ∀ b j u v, j ≠ i → zx.data b j u v = zy.data b j u v := by
  have hfX := forward_ok (mkGravDecoder (dz, dy, dx) (nz, ny, nx) gz) X hR hC rfl rfl hL
  have hfY := forward_ok (mkGravDecoder (dz, dy, dx) (nz, ny, nx) gz) Y
    (hyr.trans hR) (hyc.trans hC) rfl rfl (by rw [hyl]; exact hL)
  refine ⟨_, _, hfX, hfY, ?_⟩
  intro b j u v hj
  show (if j < X.nl then
      (layerRes (mkGravDecoder (dz, dy, dx) (nz, ny, nx) gz) X j b u v).re else 0)
    = (if j < Y.nl then
      (layerRes (mkGravDecoder (dz, dy, dx) (nz, ny, nx) gz) Y j b u v).re else 0)
  rw [hyl]
  by_cases hl : j < X.nl
  · rw [if_pos hl, if_pos hl]
    have hcg : layerRes (mkGravDecoder (dz, dy, dx) (nz, ny, nx) gz) X j b u v
        = layerRes (mkGravDecoder (dz, dy, dx) (nz, ny, nx) gz) Y j b u v := by
      unfold layerRes layerResK
      rw [hyr, hyc]
      exact layerField_congr _ _ _ _ _ (X.data b j) (Y.data b j) u v
        (fun n m hn hm => hd b j n m hj hn hm)
    rw [hcg]
  · rw [if_neg hl, if_neg hl]

/-- C3 witness: noninterference applied at a concrete geometry with two
concrete volumes differing only at layer 0. -/
theorem C3_layer_noninterference_witness :
    ((1 : ℕ) = 1) ∧
    ∃ zx zy,
      forward (mkGravDecoder (50, 100, 100) (2, 1, 1) (fun _ _ => 0))
          ⟨1, 2, 1, 1, fun _ l _ _ => if l = 0 then 7 else 1⟩ = Except.ok zx ∧
      forward (mkGravDecoder (50, 100, 100) (2, 1, 1) (fun _ _ => 0))
          ⟨1, 2, 1, 1, fun _ l _ _ => if l = 0 then 9 else 1⟩ = Except.ok zy ∧
      ∀ b j u v, j ≠ 0 → zx.data b j u v = zy.data b j u v :=
  ⟨rfl, C3_layer_noninterference (fun _ _ => 0) 50 100 100 2 1 1 0
    ⟨1, 2, 1, 1, fun _ l _ _ => if l = 0 then 7 else 1⟩
    ⟨1, 2, 1, 1, fun _ l _ _ => if l = 0 then 9 else 1⟩
    rfl rfl rfl rfl rfl (le_refl 2)
    (fun b l n m hl _ _ => by simp [hl])⟩

/-- C6: shape invariance — for a density volume whose shape matches the
configured geometry, the forward operation returns a field volume of
exactly the same shape. -/
theorem C6_shape_invariance (gz : ℕ → ℕ → ℝ) (dz dy dx : ℚ) (nz ny nx : ℕ)
    (x : Tensor4) (hl : x.nl = nz) (hR : x.nr = ny) (hC : x.nc = nx) :
    ∃ y, forward (mkGravDecoder (dz, dy, dx) (nz, ny, nx) gz) x = Except.ok y ∧
      y.shape = x.shape := by
  refine ⟨_, forward_ok (mkGravDecoder (dz, dy, dx) (nz, ny, nx) gz) x
    hR hC rfl rfl (le_of_eq hl), rfl⟩

/-- C6 witness: shape invariance at a concrete geometry and volume. -/
theorem C6_shape_invariance_witness :
    ((1 : ℕ) = 1) ∧
    ∃ y, forward (mkGravDecoder (50, 100, 100) (2, 3, 4) (fun _ _ => 0))
        ⟨5, 2, 3, 4, fun _ _ _ _ => 1⟩ = Except.ok y ∧
      y.shape = (⟨5, 2, 3, 4, fun _ _ _ _ => 1⟩ : Tensor4).shape :=
  ⟨rfl, C6_shape_invariance (fun _ _ => 0) 50 100 100 2 3 4
    ⟨5, 2, 3, 4, fun _ _ _ _ => 1⟩ rfl rfl rfl⟩

/-- C7: zero input maps to zero output exactly — the forward operation
on the all-zero density volume of matching shape returns the all-zero
field volume of the same shape, with exact equality. -/
theorem C7_zero_input_zero_output (gz : ℕ → ℕ → ℝ) (dz dy dx : ℚ)
    (nz ny nx B : ℕ) :
    ∃ y, forward (mkGravDecoder (dz, dy, dx) (nz, ny, nx) gz)
        ⟨B, nz, ny, nx, fun _ _ _ _ => 0⟩ = Except.ok y ∧
      y.shape = (B, nz, ny, nx) ∧
      ∀ b l u v, y.data b l u v = 0 := by
  refine ⟨_, forward_ok (mkGravDecoder (dz, dy, dx) (nz, ny, nx) gz)
    ⟨B, nz, ny, nx, fun _ _ _ _ => 0⟩ rfl rfl rfl rfl (le_refl nz), rfl, ?_⟩
  intro b l u v
  show (if l < nz then
      (layerRes (mkGravDecoder (dz, dy, dx) (nz, ny, nx) gz)
        ⟨B, nz, ny, nx, fun _ _ _ _ => 0⟩ l b u v).re else 0) = 0
  by_cases hl : l < nz
  · rw [if_pos hl]
    have hz : layerRes (mkGravDecoder (dz, dy, dx) (nz, ny, nx) gz)
        ⟨B, nz, ny, nx, fun _ _ _ _ => 0⟩ l b u v = 0 := by
      unfold layerRes layerResK
      exact layerField_zero _ _ _ _ _ _ u v (fun _ _ _ _ => rfl)
    rw [hz]
    exact Complex.zero_re
  · rw [if_neg hl]

/-- C7 witness: zero-to-zero at a concrete geometry. -/
theorem C7_zero_input_zero_output_witness :
    ((1 : ℕ) = 1) ∧
    ∃ y, forward (mkGravDecoder (50, 100, 100) (2, 3, 4) (fun _ _ => 0))
        ⟨1, 2, 3, 4, fun _ _ _ _ => 0⟩ = Except.ok y ∧
      y.shape = (1, 2, 3, 4) ∧
      ∀ b l u v, y.data b l u v = 0 :=
  ⟨rfl, C7_zero_input_zero_output (fun _ _ => 0) 50 100 100 2 3 4 1⟩

/-- C4 counterexample: an input volume whose layer count (1) differs
from the configured layer count (2) does not raise — the forward call
returns a result, refuting the claim that every layer-count mismatch
raises an error. -/
theorem C4_counterexample_fewer_layers_ok :
    ∃ y, forward (mkGravDecoder (50, 100, 100) (2, 1, 1) (fun _ _ => 0))
        ⟨1, 1, 1, 1, fun _ _ _ _ => 1⟩ = Except.ok y :=
  ⟨_, forward_ok (mkGravDecoder (50, 100, 100) (2, 1, 1) (fun _ _ => 0))
    ⟨1, 1, 1, 1, fun _ _ _ _ => 1⟩ rfl rfl rfl rfl (Nat.le_succ 1)⟩

/-- C4 amended: the forward operation raises a shape error whenever the
row or column count disagrees with the configured geometry (for any
input with at least one layer), and whenever the layer count exceeds
the configured layer count; but an input with fewer layers than
configured is processed without error, returning a volume of the
input's own shape (each present layer convolved with its kernel) —
the input is still never truncated or reshaped. -/
theorem C4_amended_shape_errors (gz : ℕ → ℕ → ℝ) (dz dy dx : ℚ) (nz ny nx : ℕ)
    (x : Tensor4) :
    (1 ≤ x.nl → (x.nr ≠ ny ∨ x.nc ≠ nx) →
      ∃ msg, forward (mkGravDecoder (dz, dy, dx) (nz, ny, nx) gz) x = Except.error msg)
    ∧ (x.nr = ny → x.nc = nx → nz < x.nl →
      ∃ msg, forward (mkGravDecoder (dz, dy, dx) (nz, ny, nx) gz) x = Except.error msg)
    ∧ (x.nr = ny → x.nc = nx → x.nl ≤ nz →
      ∃ y, forward (mkGravDecoder (dz, dy, dx) (nz, ny, nx) gz) x = Except.ok y
        ∧ y.shape = x.shape) := by
  refine ⟨?_, ?_, ?_⟩
  · intro h1 h2
    unfold forward
    obtain ⟨k, hk⟩ : ∃ k, x.nl = k + 1 := ⟨x.nl - 1, by omega⟩
    rw [hk, List.range_succ_eq_map]
    obtain ⟨msg, hmsg⟩ := forwardLayers_err_rowcol
      (mkGravDecoder (dz, dy, dx) (nz, ny, nx) gz) x rfl rfl h2 0
      (List.map Nat.succ (List.range k)) (fun _ _ _ _ => 0)
    rw [hmsg]
    exact ⟨msg, rfl⟩
  · intro hR hC hnl
    unfold forward
    obtain ⟨msg, hmsg⟩ := forwardLayers_err_layer
      (mkGravDecoder (dz, dy, dx) (nz, ny, nx) gz) x hR hC rfl rfl
      (List.range x.nl) (fun _ _ _ _ => 0)
      ⟨nz, List.mem_range.mpr hnl, le_refl nz⟩
    rw [hmsg]
    exact ⟨msg, rfl⟩
  · intro hR hC hnl
    exact ⟨_, forward_ok (mkGravDecoder (dz, dy, dx) (nz, ny, nx) gz) x
      hR hC rfl rfl hnl, rfl⟩

/-- C4 witness: the amended theorem applied at concrete inputs — a
row-count mismatch raises, a layer count exceeding the configured one
raises, and a smaller layer count succeeds with the input's shape. -/
theorem C4_amended_shape_errors_witness :
    (∃ msg, forward (mkGravDecoder (50, 100, 100) (2, 1, 1) (fun _ _ => 0))
      ⟨1, 1, 2, 1, fun _ _ _ _ => 0⟩ = Except.error msg)
    ∧ (∃ msg, forward (mkGravDecoder (50, 100, 100) (2, 1, 1) (fun _ _ => 0))
      ⟨1, 3, 1, 1, fun _ _ _ _ => 0⟩ = Except.error msg)
    ∧ (∃ y, forward (mkGravDecoder (50, 100, 100) (2, 1, 1) (fun _ _ => 0))
      ⟨1, 1, 1, 1, fun _ _ _ _ => 0⟩ = Except.ok y ∧ y.shape = (1, 1, 1, 1)) :=
  ⟨(C4_amended_shape_errors (fun _ _ => 0) 50 100 100 2 1 1
      ⟨1, 1, 2, 1, fun _ _ _ _ => 0⟩).1 (Nat.le_refl 1) (Or.inl (by decide)),
   (C4_amended_shape_errors (fun _ _ => 0) 50 100 100 2 1 1
      ⟨1, 3, 1, 1, fun _ _ _ _ => 0⟩).2.1 rfl rfl (by decide),
   (C4_amended_shape_errors (fun _ _ => 0) 50 100 100 2 1 1
      ⟨1, 1, 1, 1, fun _ _ _ _ => 0⟩).2.2 rfl rfl (by decide)⟩

/-- C8 counterexample: constructing the module with a zero (hence
non-positive) layer count completes without any error — there is no
validation in the constructor — refuting the claim that every
non-positive cell count fails immediately. -/
theorem C8_counterexample_no_validation :
    ∃ dec, gravDecoderInit (50, 100, 100) (0, 64, 64) (fun _ _ => 0) = Except.ok dec :=
  ⟨_, rfl⟩

/-- C8 amended: the constructor performs no validation of the geometry
descriptor; in particular, with a zero layer count (and arbitrary other
fields) construction succeeds and yields an empty kernel cache entry of
shape `(0, 2*R, 2*C, 2)`. -/
theorem C8_amended_no_validation (dz dy dx : ℚ) (ny nx : ℕ) (gz : ℕ → ℕ → ℝ) :
    ∃ dec, gravDecoderInit (dz, dy, dx) (0, ny, nx) gz = Except.ok dec
      ∧ dec.kernelEigs.shape = (0, 2 * ny, 2 * nx, 2) :=
  ⟨_, rfl, rfl⟩

/-- C9: the kernel cache entry is a 4-dimensional array of shape
`(L, 2R, 2C, 2)` — padded horizontal dimensions exactly double the
unpadded ones — whose last axis holds the real and imaginary channels
of the per-layer transform. -/
theorem C9_kernel_cache_shape (gz : ℕ → ℕ → ℝ) (dz dy dx : ℚ) (nz ny nx : ℕ) :
    (mkGravDecoder (dz, dy, dx) (nz, ny, nx) gz).kernelEigs.shape
      = (nz, 2 * ny, 2 * nx, 2)
    ∧ ∀ i a b,
      (mkGravDecoder (dz, dy, dx) (nz, ny, nx) gz).kernelEigs.data i a b 0
        = (dft2u (2 * ny) (2 * nx) (padK gz ny nx i) a b).re
      ∧ (mkGravDecoder (dz, dy, dx) (nz, ny, nx) gz).kernelEigs.data i a b 1
        = (dft2u (2 * ny) (2 * nx) (padK gz ny nx i) a b).im :=
  ⟨rfl, fun _ _ _ => ⟨rfl, rfl⟩⟩

/-! ### Decimal rendering and cache-key lemmas -/

theorem digitChar_ne : ∀ d : ℕ, d < 10 →
    digitChar d ≠ 'x' ∧ digitChar d ≠ '_' ∧ digitChar d ≠ '-' := by decide

theorem digitChar_val : ∀ d : ℕ, d < 10 → (digitChar d).toNat - 48 = d := by decide

theorem natDigits_sep (n : ℕ) :
    ∀ ch ∈ natDigits n, ch ≠ 'x' ∧ ch ≠ '_' ∧ ch ≠ '-' := by
  induction n using Nat.strong_induction_on with
  | _ n ih =>
    intro ch hch
    rw [natDigits] at hch
    split_ifs at hch with h
    · rw [List.mem_singleton] at hch
      subst hch
      exact digitChar_ne n h
    · rw [List.mem_append] at hch
      rcases hch with hch | hch
      · exact ih (n / 10) (Nat.div_lt_self (by omega) (by omega)) ch hch
      · rw [List.mem_singleton] at hch
        subst hch
        exact digitChar_ne (n % 10) (Nat.mod_lt n (by omega))

theorem digitsVal_natDigits (n : ℕ) : digitsVal (natDigits n) = n := by
  induction n using Nat.strong_induction_on with
  | _ n ih =>
    rw [natDigits]
    split_ifs with h
    · show 10 * 0 + ((digitChar n).toNat - 48) = n
      rw [digitChar_val n h]
      omega
    · unfold digitsVal
      rw [List.foldl_append]
      show 10 * (digitsVal (natDigits (n / 10))) + ((digitChar (n % 10)).toNat - 48) = n
      rw [ih (n / 10) (Nat.div_lt_self (by omega) (by omega)),
        digitChar_val (n % 10) (Nat.mod_lt n (by omega))]
      omega

theorem natDigits_inj {a b : ℕ} (h : natDigits a = natDigits b) : a = b := by
  rw [← digitsVal_natDigits a, h, digitsVal_natDigits]

theorem intDigits_sep (z : ℤ) : ∀ ch ∈ intDigits z, ch ≠ 'x' ∧ ch ≠ '_' := by
  intro ch hch
  unfold intDigits at hch
  split_ifs at hch with h
  · rcases List.mem_cons.mp hch with rfl | hch
    · exact ⟨by decide, by decide⟩
    · have hc := natDigits_sep z.natAbs ch hch
      exact ⟨hc.1, hc.2.1⟩
  · have hc := natDigits_sep z.toNat ch hch
    exact ⟨hc.1, hc.2.1⟩

theorem intDigits_inj_nonneg {a b : ℤ} (ha : 0 ≤ a) (hb : 0 ≤ b)
    (h : intDigits a = intDigits b) : a = b := by
  unfold intDigits at h
  rw [if_neg (not_lt.mpr ha), if_neg (not_lt.mpr hb)] at h
  have hv := natDigits_inj h
  omega

theorem sep_split {sep : Char} :
    ∀ (a b t u : List Char), (∀ ch ∈ a, ch ≠ sep) → (∀ ch ∈ b, ch ≠ sep) →
      a ++ sep :: t = b ++ sep :: u → a = b ∧ t = u := by
  intro a
  induction a with
  | nil =>
    intro b t u _ hB h
    cases b with
    | nil =>
      simp only [List.nil_append, List.cons.injEq] at h
      exact ⟨rfl, h.2⟩
    | cons c bs =>
      simp only [List.nil_append, List.cons_append, List.cons.injEq] at h
      exact absurd h.1.symm (hB c (List.mem_cons_self c bs))
  | cons c as ih =>
    intro b t u hA hB h
    cases b with
    | nil =>
      simp only [List.cons_append, List.nil_append, List.cons.injEq] at h
      exact absurd h.1 (hA c (List.mem_cons_self c as))
    | cons c2 bs =>
      simp only [List.cons_append, List.cons.injEq] at h
      obtain ⟨rfl, h2⟩ := h
      obtain ⟨h3, h4⟩ := ih bs t u (fun ch hch => hA ch (List.mem_cons_of_mem _ hch))
        (fun ch hch => hB ch (List.mem_cons_of_mem _ hch)) h2
      exact ⟨by rw [h3], h4⟩

theorem rnd0_bounds (q : ℚ) :
    (rnd0 q : ℚ) ≤ q + 1 / 2 ∧ q - 1 / 2 ≤ (rnd0 q : ℚ) := by
  unfold rnd0
  have hf1 : (Int.floor q : ℚ) ≤ q := Int.floor_le q
  have hf2 : q < (Int.floor q : ℚ) + 1 := Int.lt_floor_add_one q
  split_ifs with h1 h2 h3 <;> constructor <;> push_cast <;> linarith

theorem rnd0_nonneg (q : ℚ) (hq : 0 < q) : 0 ≤ rnd0 q := by
  have hb := (rnd0_bounds q).2
  by_contra h
  push_neg at h
  have h2 : rnd0 q ≤ -1 := by omega
  have h3 : (rnd0 q : ℚ) ≤ -1 := by exact_mod_cast h2
  linarith

theorem rnd0_apart {a b : ℚ} (h : 1 < |a - b|) : rnd0 a ≠ rnd0 b := by
  intro he
  have ha := rnd0_bounds a
  have hb := rnd0_bounds b
  have heq : (rnd0 a : ℚ) = (rnd0 b : ℚ) := by exact_mod_cast congrArg Int.cast he
  rcases lt_abs.mp h with h' | h'
  · linarith [ha.2, hb.1]
  · linarith [ha.1, hb.2]

theorem rnd0_of_small (q : ℚ) (z : ℤ) (hz : Int.floor q = z)
    (hsmall : q - (z : ℚ) < 1 / 2) : rnd0 q = z := by
  unfold rnd0
  rw [hz, if_pos hsmall]

/-- C5 counterexample: the key formats cell sizes with zero decimal
places, so the two distinct geometries with cell sizes 50.2 and 50.4 —
which differ by at least 0.1 — produce the same cache key, refuting the
claimed injectivity. -/
theorem C5_counterexample_key_collision :
    ((251 : ℚ) / 5 ≠ 252 / 5)
    ∧ (1 / 10 : ℚ) ≤ |251 / 5 - 252 / 5|
    ∧ cacheKey (32, 64, 64) (251 / 5, 100, 100)
        = cacheKey (32, 64, 64) (252 / 5, 100, 100) := by
  have h1 : rnd0 ((251 : ℚ) / 5) = 50 :=
    rnd0_of_small _ 50 (by rw [Int.floor_eq_iff]; norm_num) (by norm_num)
  have h2 : rnd0 ((252 : ℚ) / 5) = 50 :=
    rnd0_of_small _ 50 (by rw [Int.floor_eq_iff]; norm_num) (by norm_num)
  have h3 : rnd0 (100 : ℚ) = 100 :=
    rnd0_of_small _ 100 (by rw [Int.floor_eq_iff]; norm_num) (by norm_num)
  refine ⟨by norm_num, ?_, ?_⟩
  · rw [show (251 : ℚ) / 5 - 252 / 5 = -(1 / 5) from by norm_num, abs_neg,
      abs_of_nonneg (by norm_num : (0 : ℚ) ≤ 1 / 5)]
    norm_num
  · unfold cacheKey keyChars
    rw [h1, h2, h3]

/-- C5 amended: the key string formats the three cell counts as plain
integers and the three cell sizes with zero decimal places
(round-half-even), so two geometry descriptors with positive cell sizes
that differ in a cell count, or whose cell sizes differ by more than 1
in some coordinate, never produce the same key (sizes differing by as
little as 0.1 can collide). -/
theorem C5_amended_key_injectivity
    (n1 n2 n3 n1' n2' n3' : ℕ) (d1 d2 d3 d1' d2' d3' : ℚ)
    (hp1 : 0 < d1) (hp2 : 0 < d2) (hp3 : 0 < d3)
    (hp1' : 0 < d1') (hp2' : 0 < d2') (hp3' : 0 < d3')
    (hdiff : (n1, n2, n3) ≠ (n1', n2', n3')
      ∨ 1 < |d1 - d1'| ∨ 1 < |d2 - d2'| ∨ 1 < |d3 - d3'|) :
    cacheKey (n1, n2, n3) (d1, d2, d3) ≠ cacheKey (n1', n2', n3') (d1', d2', d3') := by
  intro h
  unfold cacheKey at h
  injection h with hl
  unfold keyChars at hl
  simp only [List.cons_append, List.append_assoc] at hl
  obtain ⟨e1, hl⟩ := sep_split _ _ _ _
    (fun ch hch => (natDigits_sep n1 ch hch).1)
    (fun ch hch => (natDigits_sep n1' ch hch).1) hl
  obtain ⟨e2, hl⟩ := sep_split _ _ _ _
    (fun ch hch => (natDigits_sep n2 ch hch).1)
    (fun ch hch => (natDigits_sep n2' ch hch).1) hl
  obtain ⟨e3, hl⟩ := sep_split _ _ _ _
    (fun ch hch => (natDigits_sep n3 ch hch).2.1)
    (fun ch hch => (natDigits_sep n3' ch hch).2.1) hl
  obtain ⟨e4, hl⟩ := sep_split _ _ _ _
    (fun ch hch => (intDigits_sep (rnd0 d1) ch hch).1)
    (fun ch hch => (intDigits_sep (rnd0 d1') ch hch).1) hl
  obtain ⟨e5, hl⟩ := sep_split _ _ _ _
    (fun ch hch => (intDigits_sep (rnd0 d2) ch hch).1)
    (fun ch hch => (intDigits_sep (rnd0 d2') ch hch).1) hl
  obtain ⟨e6, -⟩ := sep_split _ _ _ _
    (fun ch hch => (intDigits_sep (rnd0 d3) ch hch).2)
    (fun ch hch => (intDigits_sep (rnd0 d3') ch hch).2) hl
  have hn1 : n1 = n1' := natDigits_inj e1
  have hn2 : n2 = n2' := natDigits_inj e2
  have hn3 : n3 = n3' := natDigits_inj e3
  have hr1 : rnd0 d1 = rnd0 d1' :=
    intDigits_inj_nonneg (rnd0_nonneg d1 hp1) (rnd0_nonneg d1' hp1') e4
  have hr2 : rnd0 d2 = rnd0 d2' :=
    intDigits_inj_nonneg (rnd0_nonneg d2 hp2) (rnd0_nonneg d2' hp2') e5
  have hr3 : rnd0 d3 = rnd0 d3' :=
    intDigits_inj_nonneg (rnd0_nonneg d3 hp3) (rnd0_nonneg d3' hp3') e6
  rcases hdiff with hc | hc | hc | hc
  · exact hc (by rw [hn1, hn2, hn3])
  · exact rnd0_apart hc hr1
  · exact rnd0_apart hc hr2
  · exact rnd0_apart hc hr3

/-- C5 witness: amended injectivity at two concrete geometries whose
first cell sizes differ by 2. -/
theorem C5_amended_key_injectivity_witness :
    (0 < (50 : ℚ)) ∧
    cacheKey (32, 64, 64) (50, 100, 100) ≠ cacheKey (32, 64, 64) (52, 100, 100) :=
  ⟨by norm_num,
    C5_amended_key_injectivity 32 64 64 32 64 64 50 100 100 52 100 100
      (by norm_num) (by norm_num) (by norm_num)
      (by norm_num) (by norm_num) (by norm_num)
      (Or.inr (Or.inl (by
        rw [show (50 : ℚ) - 52 = -2 from by norm_num, abs_neg,
          abs_of_nonneg (by norm_num : (0 : ℚ) ≤ 2)]
        norm_num)))⟩

/-! ### Heap frame lemmas -/

theorem sliceAssignOk_of (ny nx rin cin : ℕ) (h1 : rin = ny) (h2 : cin = nx) :
    sliceAssignOk ny nx rin cin = true := by
  subst h1
  subst h2
  exact sliceAssignOk_self rin cin

theorem mulOk_of (ke : Tensor4) (ny nx rin cin : ℕ) (h1 : rin = ny) (h2 : cin = nx)
    (hke1 : ke.nl = 2 * ny) (hke2 : ke.nr = 2 * nx) : mulOk ke rin cin = true := by
  subst h1
  subst h2
  exact mulOk_self ke rin cin hke1 hke2

theorem resAssignOk_of (ny nx : ℕ) (ke : Tensor4) (rin cin : ℕ)
    (h1 : rin = ny) (h2 : cin = nx)
    (hke1 : ke.nl = 2 * ny) (hke2 : ke.nr = 2 * nx) :
    resAssignOk ny nx ke rin cin = true := by
  subst h1
  subst h2
  exact resAssignOk_self rin cin ke hke1 hke2

theorem finalAssignOk_of (ny nx rin cin : ℕ) (h1 : rin = ny) (h2 : cin = nx) :
    finalAssignOk ny nx rin cin = true := by
  subst h1
  subst h2
  exact finalAssignOk_self rin cin

theorem heap_scratch_length (h : Heap) (t1 t2 E R T F : Tensor4) (fref : ℕ) :
    (List.set ((List.set (List.set ((h ++ [t1]) ++ [t2]) ((h ++ [t1]).length) E)
      (h.length) R) ++ [T]) fref F).length = h.length + 3 := by
  simp

theorem heap_scratch_getElem (h : Heap) (t1 t2 E R T F : Tensor4) (fref j : ℕ)
    (hj : j < h.length) (hjf : j ≠ fref) :
    (List.set ((List.set (List.set ((h ++ [t1]) ++ [t2]) ((h ++ [t1]).length) E)
      (h.length) R) ++ [T]) fref F)[j]? = h[j]? := by
  rw [List.getElem?_set_ne (Ne.symm hjf)]
  rw [List.getElem?_append_left
    (show j < (List.set (List.set ((h ++ [t1]) ++ [t2]) ((h ++ [t1]).length) E)
      (h.length) R).length from by simp; omega)]
  rw [List.getElem?_set_ne (show h.length ≠ j from by omega)]
  rw [List.getElem?_set_ne (show (h ++ [t1]).length ≠ j from by simp; omega)]
  rw [List.getElem?_append_left (show j < (h ++ [t1]).length from by simp; omega)]
  rw [List.getElem?_append_left hj]

theorem nextHeap_length (dec : GravDecoder) (x ke facc : Tensor4) (fref i : ℕ)
    (h : Heap) : (nextHeap dec x ke facc fref i h).length = h.length + 3 :=
  heap_scratch_length h _ _ _ _ _ _ fref

theorem nextHeap_getElem (dec : GravDecoder) (x ke facc : Tensor4) (fref i : ℕ)
    (h : Heap) (j : ℕ) (hj : j < h.length) (hjf : j ≠ fref) :
    (nextHeap dec x ke facc fref i h)[j]? = h[j]? :=
  heap_scratch_getElem h _ _ _ _ _ _ fref j hj hjf

theorem forwardProgLayers_frame (dec : GravDecoder) (x ke : Tensor4) (fref : ℕ)
    (hR : x.nr = dec.ny) (hC : x.nc = dec.nx)
    (hke1 : ke.nl = 2 * dec.ny) (hke2 : ke.nr = 2 * dec.nx) :
    ∀ (l : List ℕ) (hh : Heap) (n0 : ℕ),
      (∀ i ∈ l, i < ke.nb) → n0 ≤ fref → fref < hh.length →
      ∃ h2, forwardProgLayers dec x ke fref l hh = Except.ok h2
        ∧ (∀ j, j < n0 → h2[j]? = hh[j]?)
        ∧ hh.length ≤ h2.length := by
  intro l
  induction l with
  | nil =>
    intro hh n0 _ _ _
    exact ⟨hh, rfl, fun j _ => rfl, le_refl _⟩
  | cons i rest ih =>
    intro hh n0 hmem hn0f hf
    have hi : i < ke.nb := hmem i (List.mem_cons_self i rest)
    rw [forwardProgLayers, List.getElem?_eq_getElem hf]
    dsimp only
    rw [sliceAssignOk_of dec.ny dec.nx x.nr x.nc hR hC]
    simp only [if_true]
    rw [if_pos hi, mulOk_of ke dec.ny dec.nx x.nr x.nc hR hC hke1 hke2,
      resAssignOk_of dec.ny dec.nx ke x.nr x.nc hR hC hke1 hke2,
      finalAssignOk_of dec.ny dec.nx x.nr x.nc hR hC]
    simp only [if_true]
    obtain ⟨h2, hstep, hpres, hlen⟩ := ih (nextHeap dec x ke (hh[fref]) fref i hh) n0
      (fun j hj => hmem j (List.mem_cons_of_mem _ hj)) hn0f
      (by rw [nextHeap_length]; omega)
    refine ⟨h2, hstep, ?_, ?_⟩
    · intro j hj
      rw [hpres j hj, nextHeap_getElem dec x ke _ fref i hh j (by omega) (by omega)]
    · have hnl := nextHeap_length dec x ke (hh[fref]) fref i hh
      omega

/-- C10: the forward operation never mutates its input density volume
or the cached kernel entry — after the call their heap cells hold
exactly the tensors they held before — and the returned field volume is
a fresh allocation whose reference differs from the input's and the
kernel's. -/
theorem C10_no_mutation_fresh_output
    (dec : GravDecoder) (h : Heap) (xref kref : ℕ) (x ke : Tensor4)
    (hgx : h[xref]? = some x) (hgk : h[kref]? = some ke)
    (hR : x.nr = dec.ny) (hC : x.nc = dec.nx)
    (hke1 : ke.nl = 2 * dec.ny) (hke2 : ke.nr = 2 * dec.nx)
    (hL : ∀ i, i < x.nl → i < ke.nb) :
    ∃ h2, forwardProg dec h xref kref = Except.ok (h2, h.length)
      ∧ h2[xref]? = some x ∧ h2[kref]? = some ke
      ∧ h.length ≠ xref ∧ h.length ≠ kref ∧ h.length < h2.length := by
  have hxlt : xref < h.length := by
    by_contra hc
    push_neg at hc
    rw [List.getElem?_eq_none hc] at hgx
    exact Option.noConfusion hgx
  have hklt : kref < h.length := by
    by_contra hc
    push_neg at hc
    rw [List.getElem?_eq_none hc] at hgk
    exact Option.noConfusion hgk
  obtain ⟨h2, hstep, hpres, hlen⟩ := forwardProgLayers_frame dec x ke (List.length h)
    hR hC hke1 hke2 (List.range x.nl) (h ++ [zerosLike x]) (List.length h)
    (fun i hi => hL i (List.mem_range.mp hi)) (le_refl _) (by simp)
  unfold forwardProg
  rw [hgx, hgk]
  dsimp only
  rw [hstep]
  refine ⟨h2, rfl, ?_, ?_, by omega, by omega, ?_⟩
  · rw [hpres xref hxlt, List.getElem?_append_left hxlt]
    exact hgx
  · rw [hpres kref hklt, List.getElem?_append_left hklt]
    exact hgk
  · have : (h ++ [zerosLike x]).length = h.length + 1 := by simp
    omega

/-- C10 witness: the frame theorem at a concrete two-cell heap. -/
theorem C10_no_mutation_fresh_output_witness :
    ∃ h2, forwardProg (mkGravDecoder (50, 100, 100) (1, 1, 1) (fun _ _ => 0))
        [⟨1, 1, 1, 1, fun _ _ _ _ => 0⟩, ⟨1, 2, 2, 2, fun _ _ _ _ => 0⟩] 0 1
      = Except.ok (h2, 2)
      ∧ h2[0]? = some (⟨1, 1, 1, 1, fun _ _ _ _ => 0⟩ : Tensor4)
      ∧ h2[1]? = some (⟨1, 2, 2, 2, fun _ _ _ _ => 0⟩ : Tensor4)
      ∧ (2 : ℕ) ≠ 0 ∧ (2 : ℕ) ≠ 1 ∧ 2 < h2.length :=
  C10_no_mutation_fresh_output
    (mkGravDecoder (50, 100, 100) (1, 1, 1) (fun _ _ => 0))
    [⟨1, 1, 1, 1, fun _ _ _ _ => 0⟩, ⟨1, 2, 2, 2, fun _ _ _ _ => 0⟩] 0 1
    ⟨1, 1, 1, 1, fun _ _ _ _ => 0⟩ ⟨1, 2, 2, 2, fun _ _ _ _ => 0⟩
    rfl rfl rfl rfl rfl rfl (fun _ hi => hi)

end DCNet
